import Mathlib

/-!
Shallow embedding of the Authority Graph Builder
(`src/authority-graph-builder.js`): a pure transformation that validates
authority events, normalizes amounts, groups edges by wallet and sorts each
wallet's edges with a multi-key comparator.

Modelling conventions for the JavaScript source:
* a possibly `null`/`undefined`/missing string field is `Option String`
  (`none` covers both `null` and `undefined`, which the source treats alike);
* JavaScript truthiness on a string field (`!event.wallet`) is
  `truthyStr` (`none` and the empty string are falsy);
* the polymorphic `amount` field (string | number | null | missing) is the
  tagged union `Amount`, with numbers modelled as integers;
* `String(x).toUpperCase()` is modelled by `jsToUpperCase`, ASCII case
  mapping exactly as `Char.toUpper`;
* `Array.prototype.sort(cmp)` is required by ES2019 to be stable; it is
  modelled as the stable insertion sort `List.insertionSort` on the
  relation `cmp a b ≤ 0`, and `localeCompare` on the hex-string hashes is
  modelled as lexicographic string comparison;
* exceptions become `Except GraphError`, where `GraphError` tags the four
  documented failure kinds.
-/

/-- The polymorphic JavaScript `amount` value: `absent` covers `null` and
`undefined`; numbers are modelled as integers. -/
inductive Amount where
  | absent
  | str (s : String)
  | num (n : Int)
deriving DecidableEq

/-- JavaScript `String(amount)` for a non-absent amount (integers print in
decimal, strings are unchanged; `String(null)` is the literal `"null"`). -/
def amountToString : Amount → String
  | .absent => "null"
  | .str s => s
  | .num n => toString n

/-- Model of `String.prototype.toUpperCase` restricted to ASCII: uppercase
every character of the string. -/
def jsToUpperCase (s : String) : String :=
  String.mk (s.data.map Char.toUpper)

/-- Model of `List` infix containment, used for `String.prototype.includes`:
`hasInfix sub l` is true when `sub` occurs contiguously inside `l`. -/
def hasInfix (sub : List Char) : List Char → Bool
  | [] => sub.isEmpty
  | c :: rest => sub.isPrefixOf (c :: rest) || hasInfix sub rest

/-- Model of `s.includes(sub)` on JavaScript strings. -/
def strIncludes (s sub : String) : Bool :=
  hasInfix sub.data s.data

/-- The decimal representation of 2^256 - 1, the on-chain unlimited
approval sentinel recognised by `normalizeAmount`. -/
def maxUint256Str : String :=
  "115792089237316195423570985008687907853269984665640564039457584007913129639935"

/-- Line-for-line model of `normalizeAmount` from the source: `null` and
`undefined` map to `"unlimited"`; then the uppercased string form is checked
against the unlimited sentinels; then against `"0"`; otherwise the original
string form is returned. -/
def normalizeAmount (amount : Amount) : String :=
  match amount with
  | .absent => "unlimited"
  | _ =>
    let amountStr := jsToUpperCase (amountToString amount)
    if amountStr = "MAX_UINT" ∨ amountStr = "UNLIMITED" ∨
        strIncludes amountStr maxUint256Str = true then
      "unlimited"
    else if amountStr = "0" then
      "0"
    else
      amountToString amount

/-- An input authority event; every field that the source reads defensively
is optional here. -/
structure AuthorityEvent where
  wallet : Option String
  contract : Option String
  authority_type : Option String
  target_entity : Option String
  amount : Amount
  block : Option Int
  timestamp : Option Int
  tx_hash : Option String
  log_index : Option Int
deriving DecidableEq

/-- A normalized authority edge as built by the source; `tx_hash` and
`log_index` are `none` exactly when the source omits the field from the
edge object. -/
structure AuthorityEdge where
  type : String
  contract : String
  target_entity : String
  amount : String
  block : Int
  timestamp : Int
  revocation_possible : String
  tx_hash : Option String
  log_index : Option Int
deriving DecidableEq

/-- One wallet's graph: the wallet key plus its ordered edge list. -/
structure WalletGraph where
  wallet : String
  authority_edges : List AuthorityEdge
deriving DecidableEq

/-- The four failure kinds of the builder and its wrapper. -/
inductive GraphError where
  | invalidInput
  | missingField (field : String)
  | noEvents
  | multipleWallets
deriving DecidableEq

/-- The builder's argument: either an actual array of events or any
non-array JavaScript value. -/
inductive JsInput where
  | notArray
  | array (events : List AuthorityEvent)

/-- The top-level output: a wallet-keyed mapping, modelled as an association
list in key insertion order. -/
abbrev AuthorityGraph := List (String × WalletGraph)

instance {ε α : Type} [DecidableEq ε] [DecidableEq α] : DecidableEq (Except ε α) := by
  intro a b
  cases a <;> cases b
  case error.error e e' =>
    exact if h : e = e' then .isTrue (by rw [h]) else .isFalse (by intro hc; cases hc; exact h rfl)
  case ok.ok x y =>
    exact if h : x = y then .isTrue (by rw [h]) else .isFalse (by intro hc; cases hc; exact h rfl)
  case error.ok e x => exact .isFalse (by intro hc; cases hc)
  case ok.error x e => exact .isFalse (by intro hc; cases hc)

/-- JavaScript truthiness of an optional string field: `null`, `undefined`
and the empty string are falsy. -/
def truthyStr : Option String → Bool
  | none => false
  | some s => if s = "" then false else true

/-- The edge object the source builds from a validated event, including the
constant `revocation_possible = "UNKNOWN"` and the two conditionally added
optional fields. -/
def edgeOf (e : AuthorityEvent) : AuthorityEdge :=
  { type := e.authority_type.getD ""
    contract := e.contract.getD ""
    target_entity := e.target_entity.getD ""
    amount := normalizeAmount e.amount
    block := e.block.getD 0
    timestamp := e.timestamp.getD 0
    revocation_possible := "UNKNOWN"
    tx_hash := if truthyStr e.tx_hash then e.tx_hash else none
    log_index := e.log_index }

/-- The per-event validation of the source loop, in source order, paired
with the edge construction: the first violated field aborts with
`missingField` naming it. -/
def processEvent (e : AuthorityEvent) : Except GraphError (String × AuthorityEdge) :=
  if truthyStr e.wallet = true then
    if truthyStr e.contract = true then
      if truthyStr e.authority_type = true then
        if truthyStr e.target_entity = true then
          if e.block = none then .error (.missingField "block")
          else if e.timestamp = none then .error (.missingField "timestamp")
          else .ok (e.wallet.getD "", edgeOf e)
        else .error (.missingField "target_entity")
      else .error (.missingField "authority_type")
    else .error (.missingField "contract")
  else .error (.missingField "wallet")

/-- Append an edge to its wallet's group, creating the group at the end of
the mapping on first sight of the wallet (JavaScript object key insertion
order). -/
def insertEdge (groups : List (String × List AuthorityEdge)) (w : String)
    (ed : AuthorityEdge) : List (String × List AuthorityEdge) :=
  match groups with
  | [] => [(w, [ed])]
  | (w', es) :: rest =>
    if w' = w then (w', es ++ [ed]) :: rest else (w', es) :: insertEdge rest w ed

/-- The validation-and-grouping loop of `buildAuthorityGraph`: processes
events in input order, aborting on the first malformed event. -/
def groupEvents : List AuthorityEvent → List (String × List AuthorityEdge) →
    Except GraphError (List (String × List AuthorityEdge))
  | [], acc => .ok acc
  | e :: rest, acc =>
    match processEvent e with
    | .error err => .error err
    | .ok (w, ed) => groupEvents rest (insertEdge acc w ed)

/-- Sign-valued lexicographic string comparison, the model of
`localeCompare` on the hash strings. -/
def strCmp (a b : String) : Int :=
  if a < b then -1 else if b < a then 1 else 0

/-- The sort comparator of the source: block difference; else hash
comparison when both edges carry a truthy, distinct `tx_hash`; else
`log_index` difference when both are defined; else timestamp difference. -/
def cmpEdges (a b : AuthorityEdge) : Int :=
  if a.block ≠ b.block then a.block - b.block
  else if truthyStr a.tx_hash = true ∧ truthyStr b.tx_hash = true ∧ a.tx_hash ≠ b.tx_hash then
    strCmp (a.tx_hash.getD "") (b.tx_hash.getD "")
  else if a.log_index.isSome = true ∧ b.log_index.isSome = true then
    a.log_index.getD 0 - b.log_index.getD 0
  else a.timestamp - b.timestamp

/-- The nonstrict relation induced by the comparator; a stable sort on it
models `Array.prototype.sort(cmp)`. -/
def edgeLe (a b : AuthorityEdge) : Prop :=
  cmpEdges a b ≤ 0

instance : DecidableRel edgeLe := fun a b => by
  unfold edgeLe; infer_instance

/-- Model of `buildAuthorityGraph` from the source: the non-array check, the
empty-array early return, the validation-and-grouping loop, the per-wallet
stable sort, and the final wallet-keyed output shape. -/
def buildAuthorityGraph : JsInput → Except GraphError AuthorityGraph
  | .notArray => .error .invalidInput
  | .array events =>
    if events.isEmpty then .ok []
    else
      match groupEvents events [] with
      | .error err => .error err
      | .ok groups =>
        .ok (groups.map fun p => (p.1, ⟨p.1, List.insertionSort edgeLe p.2⟩))

/-- Model of `buildSingleWalletGraph`: delegates to the batch builder, then
inspects the number of wallet keys. -/
def buildSingleWalletGraph (input : JsInput) : Except GraphError WalletGraph :=
  match buildAuthorityGraph input with
  | .error err => .error err
  | .ok graphs =>
    match graphs with
    | [] => .error .noEvents
    | [(_, g)] => .ok g
    | _ :: _ :: _ => .error .multipleWallets

theorem char_toNat_ofNat_of_lt {n : Nat} (h : n < 55296) : (Char.ofNat n).toNat = n := by
  rw [Char.ofNat, dif_pos (Or.inl h)]
  rfl

theorem char_toUpper_eq_zero_iff (c : Char) : c.toUpper = '0' ↔ c = '0' := by
  unfold Char.toUpper
  by_cases h : c.toNat ≥ 97 ∧ c.toNat ≤ 122
  · rw [if_pos h]
    constructor
    · intro he
      exfalso
      have h48 : (Char.ofNat (c.toNat - 32)).toNat = c.toNat - 32 :=
        char_toNat_ofNat_of_lt (by omega)
      rw [he] at h48
      have : ('0').toNat = 48 := rfl
      omega
    · intro he
      exfalso
      have : ('0').toNat = 48 := rfl
      rw [he] at h
      omega
  · rw [if_neg h]

theorem map_toUpper_eq_zero_iff (l : List Char) :
    l.map Char.toUpper = ['0'] ↔ l = ['0'] := by
  cases l with
  | nil => simp
  | cons c t =>
    simp only [List.map_cons, List.cons.injEq, List.map_eq_nil_iff]
    exact and_congr_left' (char_toUpper_eq_zero_iff c)

theorem jsToUpperCase_eq_zero_iff (s : String) : jsToUpperCase s = "0" ↔ s = "0" := by
  cases s with
  | mk data =>
    show String.mk (data.map Char.toUpper) = String.mk ['0'] ↔ String.mk data = String.mk ['0']
    constructor
    · intro h
      cases h' : data.map Char.toUpper
      all_goals rw [h'] at h
      · exact absurd h (by intro hc; cases hc)
      · cases h
        exact congrArg String.mk ((map_toUpper_eq_zero_iff data).mp h')
    · intro h
      cases h
      rfl

/-- The normalization algorithm exactly as the specification words it: the
zero test is on the plain string form rather than the uppercased form. -/
def normalizeAmountSpec (raw : Amount) : String :=
  match raw with
  | .absent => "unlimited"
  | _ =>
    if jsToUpperCase (amountToString raw) = "MAX_UINT" ∨
        jsToUpperCase (amountToString raw) = "UNLIMITED" ∨
        strIncludes (jsToUpperCase (amountToString raw)) maxUint256Str = true then
      "unlimited"
    else if amountToString raw = "0" then
      "0"
    else
      amountToString raw

theorem normalizeAmount_eq_spec_aux (a : Amount) (hne : a ≠ .absent) :
    normalizeAmount a = normalizeAmountSpec a := by
  cases a with
  | absent => exact absurd rfl hne
  | str s =>
    simp only [normalizeAmount, normalizeAmountSpec]
    by_cases h1 : jsToUpperCase (amountToString (.str s)) = "MAX_UINT" ∨
        jsToUpperCase (amountToString (.str s)) = "UNLIMITED" ∨
        strIncludes (jsToUpperCase (amountToString (.str s))) maxUint256Str = true
    · rw [if_pos h1, if_pos h1]
    · rw [if_neg h1, if_neg h1]
      by_cases h2 : jsToUpperCase (amountToString (.str s)) = "0"
      · rw [if_pos h2, if_pos ((jsToUpperCase_eq_zero_iff _).mp h2)]
      · rw [if_neg h2, if_neg (fun hc => h2 ((jsToUpperCase_eq_zero_iff _).mpr hc))]
  | num n =>
    simp only [normalizeAmount, normalizeAmountSpec]
    by_cases h1 : jsToUpperCase (amountToString (.num n)) = "MAX_UINT" ∨
        jsToUpperCase (amountToString (.num n)) = "UNLIMITED" ∨
        strIncludes (jsToUpperCase (amountToString (.num n))) maxUint256Str = true
    · rw [if_pos h1, if_pos h1]
    · rw [if_neg h1, if_neg h1]
      by_cases h2 : jsToUpperCase (amountToString (.num n)) = "0"
      · rw [if_pos h2, if_pos ((jsToUpperCase_eq_zero_iff _).mp h2)]
      · rw [if_neg h2, if_neg (fun hc => h2 ((jsToUpperCase_eq_zero_iff _).mpr hc))]

/-- C2: `normalizeAmount` agrees with the specification's four-step
description on every representable input: `"unlimited"` for null/absent and
for the unlimited sentinels (checked on the uppercase string form),
`"0"` when the string form is `"0"`, and otherwise the original value's
string form unchanged. -/
theorem normalizeAmount_matches_spec (a : Amount) :
    normalizeAmount a = normalizeAmountSpec a := by
  cases a with
  | absent => rfl
  | str s => exact normalizeAmount_eq_spec_aux _ (by intro h; cases h)
  | num n => exact normalizeAmount_eq_spec_aux _ (by intro h; cases h)

theorem normalizeAmount_fixed_of_plain (s : String)
    (h1 : ¬(jsToUpperCase s = "MAX_UINT" ∨ jsToUpperCase s = "UNLIMITED" ∨
        strIncludes (jsToUpperCase s) maxUint256Str = true))
    (h2 : jsToUpperCase s ≠ "0") :
    normalizeAmount (.str s) = s := by
  simp only [normalizeAmount, amountToString]
  rw [if_neg h1, if_neg h2]

/-- C6: normalization is idempotent — renormalizing an already normalized
amount string returns it unchanged. -/
theorem normalizeAmount_idempotent (a : Amount) :
    normalizeAmount (.str (normalizeAmount a)) = normalizeAmount a := by
  cases a with
  | absent => decide
  | str s =>
    by_cases h1 : jsToUpperCase (amountToString (.str s)) = "MAX_UINT" ∨
        jsToUpperCase (amountToString (.str s)) = "UNLIMITED" ∨
        strIncludes (jsToUpperCase (amountToString (.str s))) maxUint256Str = true
    · have hr : normalizeAmount (.str s) = "unlimited" := by
        simp only [normalizeAmount]
        rw [if_pos h1]
      rw [hr]
      decide
    · by_cases h2 : jsToUpperCase (amountToString (.str s)) = "0"
      · have hr : normalizeAmount (.str s) = "0" := by
          simp only [normalizeAmount]
          rw [if_neg h1, if_pos h2]
        rw [hr]
        decide
      · have hr : normalizeAmount (.str s) = s :=
          normalizeAmount_fixed_of_plain s h1 h2
        rw [hr, hr]
  | num n =>
    by_cases h1 : jsToUpperCase (amountToString (.num n)) = "MAX_UINT" ∨
        jsToUpperCase (amountToString (.num n)) = "UNLIMITED" ∨
        strIncludes (jsToUpperCase (amountToString (.num n))) maxUint256Str = true
    · have hr : normalizeAmount (.num n) = "unlimited" := by
        simp only [normalizeAmount]
        rw [if_pos h1]
      rw [hr]
      decide
    · by_cases h2 : jsToUpperCase (amountToString (.num n)) = "0"
      · have hr : normalizeAmount (.num n) = "0" := by
          simp only [normalizeAmount]
          rw [if_neg h1, if_pos h2]
        rw [hr]
        decide
      · have hr : normalizeAmount (.num n) = amountToString (.num n) := by
          simp only [normalizeAmount]
          rw [if_neg h1, if_neg h2]
        rw [hr]
        exact normalizeAmount_fixed_of_plain _ h1 h2

theorem strCmp_antisymm (a b : String) : strCmp b a = -strCmp a b := by
  unfold strCmp
  rcases lt_trichotomy a b with h | h | h
  · simp [h, asymm h]
  · subst h
    simp [lt_irrefl]
  · simp [h, asymm h]

theorem cmpEdges_antisymm (a b : AuthorityEdge) : cmpEdges b a = -cmpEdges a b := by
  have hBL : (b.block ≠ a.block) ↔ (a.block ≠ b.block) := ne_comm
  have hTX : (truthyStr b.tx_hash = true ∧ truthyStr a.tx_hash = true ∧
      b.tx_hash ≠ a.tx_hash) ↔ (truthyStr a.tx_hash = true ∧ truthyStr b.tx_hash = true ∧
      a.tx_hash ≠ b.tx_hash) :=
    ⟨fun h => ⟨h.2.1, h.1, Ne.symm h.2.2⟩, fun h => ⟨h.2.1, h.1, Ne.symm h.2.2⟩⟩
  have hLI : (b.log_index.isSome = true ∧ a.log_index.isSome = true) ↔
      (a.log_index.isSome = true ∧ b.log_index.isSome = true) := and_comm
  simp only [cmpEdges, hBL, hTX, hLI]
  split_ifs with h1 h2 h3
  · omega
  · exact strCmp_antisymm _ _
  · omega
  · omega

theorem edgeLe_total (a b : AuthorityEdge) : edgeLe a b ∨ edgeLe b a := by
  unfold edgeLe
  have h := cmpEdges_antisymm a b
  omega

theorem chain'_orderedInsert {α : Type} (r : α → α → Prop) [DecidableRel r]
    (tot : ∀ a b, r a b ∨ r b a) (x : α) :
    ∀ l : List α, l.Chain' r → (l.orderedInsert r x).Chain' r
  | [], _ => List.chain'_singleton x
  | y :: ys, h => by
    by_cases hxy : r x y
    · rw [List.orderedInsert, if_pos hxy]
      exact List.chain'_cons.mpr ⟨hxy, h⟩
    · rw [List.orderedInsert, if_neg hxy]
      refine List.chain'_cons'.mpr ⟨?_, chain'_orderedInsert r tot x ys h.tail⟩
      intro z hz
      cases ys with
      | nil =>
        simp only [List.orderedInsert, List.head?] at hz
        cases hz
        exact (tot x y).resolve_left hxy
      | cons w ws =>
        rw [List.orderedInsert] at hz
        by_cases hxw : r x w
        · rw [if_pos hxw] at hz
          cases hz
          exact (tot x y).resolve_left hxy
        · rw [if_neg hxw] at hz
          cases hz
          exact (List.chain'_cons.mp h).1

theorem chain'_insertionSort {α : Type} (r : α → α → Prop) [DecidableRel r]
    (tot : ∀ a b, r a b ∨ r b a) : ∀ l : List α, (l.insertionSort r).Chain' r
  | [] => List.chain'_nil
  | x :: xs => by
    rw [List.insertionSort]
    exact chain'_orderedInsert r tot x _ (chain'_insertionSort r tot xs)

/-- Tie-broken comparison on index-tagged values: ties under `r` (related
both ways) fall back to the original position, which is what stability of a
sort means. -/
def tieBreak {α : Type} (r : α → α → Prop) [DecidableRel r] (p q : Nat × α) : Prop :=
  if r p.2 q.2 ∧ r q.2 p.2 then p.1 ≤ q.1 else r p.2 q.2

instance {α : Type} (r : α → α → Prop) [d : DecidableRel r] : DecidableRel (tieBreak r) :=
  fun p q => by
    letI := d p.2 q.2
    letI := d q.2 p.2
    unfold tieBreak
    infer_instance

theorem tieBreak_def {α : Type} (r : α → α → Prop) [DecidableRel r] (i j : Nat) (x y : α) :
    tieBreak r (i, x) (j, y) = if r x y ∧ r y x then i ≤ j else r x y :=
  rfl

/-- Tag every element of a list with its position, starting at `n`. -/
def tagFrom {α : Type} (n : Nat) : List α → List (Nat × α)
  | [] => []
  | x :: xs => (n, x) :: tagFrom (n + 1) xs

theorem tagFrom_fst_le {α : Type} :
    ∀ (l : List α) (n : Nat) (p : Nat × α), p ∈ tagFrom n l → n ≤ p.1
  | [], _, p, h => absurd h (List.not_mem_nil p)
  | x :: xs, n, p, h => by
    rw [tagFrom] at h
    rcases List.mem_cons.mp h with h | h
    · subst h; exact Nat.le_refl n
    · exact Nat.le_of_succ_le (tagFrom_fst_le xs (n + 1) p h)

theorem map_snd_tagFrom {α : Type} : ∀ (l : List α) (n : Nat), (tagFrom n l).map Prod.snd = l
  | [], _ => rfl
  | x :: xs, n => by rw [tagFrom, List.map_cons, map_snd_tagFrom xs (n + 1)]

theorem map_snd_orderedInsert {α : Type} (r : α → α → Prop) [DecidableRel r] (i : Nat) (x : α) :
    ∀ m : List (Nat × α), (∀ q ∈ m, i < q.1) →
      (m.orderedInsert (tieBreak r) (i, x)).map Prod.snd = (m.map Prod.snd).orderedInsert r x
  | [], _ => rfl
  | (j, y) :: m', hm => by
    have hij : i < j := hm (j, y) (List.mem_cons_self _ _)
    have hiff : tieBreak r (i, x) (j, y) ↔ r x y := by
      rw [tieBreak_def]
      by_cases htie : r x y ∧ r y x
      · rw [if_pos htie]
        exact ⟨fun _ => htie.1, fun _ => Nat.le_of_lt hij⟩
      · rw [if_neg htie]
    rw [List.orderedInsert, List.map_cons, List.orderedInsert]
    by_cases hr : r x y
    · rw [if_pos (hiff.mpr hr), if_pos hr, List.map_cons, List.map_cons]
    · rw [if_neg (fun hc => hr (hiff.mp hc)), if_neg hr, List.map_cons,
        map_snd_orderedInsert r i x m' (fun q hq => hm q (List.mem_cons_of_mem _ hq))]

theorem map_snd_insertionSort_tagFrom {α : Type} (r : α → α → Prop) [DecidableRel r] :
    ∀ (l : List α) (n : Nat),
      ((tagFrom n l).insertionSort (tieBreak r)).map Prod.snd = l.insertionSort r
  | [], _ => rfl
  | x :: xs, n => by
    rw [tagFrom, List.insertionSort, List.insertionSort]
    rw [map_snd_orderedInsert r n x _ ?_, map_snd_insertionSort_tagFrom r xs (n + 1)]
    intro q hq
    have hq' : q ∈ tagFrom (n + 1) xs :=
      (List.perm_insertionSort (tieBreak r) (tagFrom (n + 1) xs)).subset hq
    exact Nat.lt_of_lt_of_le (Nat.lt_succ_self n) (tagFrom_fst_le xs (n + 1) q hq')

theorem orderedInsert_congr {α : Type} (r r' : α → α → Prop) [DecidableRel r] [DecidableRel r']
    (h : ∀ a b, r a b ↔ r' a b) (x : α) :
    ∀ l : List α, l.orderedInsert r x = l.orderedInsert r' x
  | [] => rfl
  | y :: ys => by
    rw [List.orderedInsert, List.orderedInsert]
    by_cases hr : r x y
    · rw [if_pos hr, if_pos ((h x y).mp hr)]
    · rw [if_neg hr, if_neg (fun hc => hr ((h x y).mpr hc)), orderedInsert_congr r r' h x ys]

theorem insertionSort_congr {α : Type} (r r' : α → α → Prop) [DecidableRel r] [DecidableRel r']
    (h : ∀ a b, r a b ↔ r' a b) :
    ∀ l : List α, l.insertionSort r = l.insertionSort r'
  | [] => rfl
  | x :: xs => by
    rw [List.insertionSort, List.insertionSort, insertionSort_congr r r' h xs,
      orderedInsert_congr r r' h x]

theorem truthyStr_eq_true_iff (o : Option String) :
    truthyStr o = true ↔ ∃ s, o = some s ∧ s ≠ "" := by
  cases o with
  | none =>
    simp [truthyStr]
  | some s =>
    by_cases h : s = ""
    · simp [truthyStr, h]
    · simp [truthyStr, h]

/-- The composite sort key that the code actually realises, as a relation:
block ascending; then hash lexicographic when both edges carry a truthy,
distinct `tx_hash`; then `log_index` ascending when both carry one (with no
further tie-break); timestamp ascending only otherwise. -/
def codeKeyLe (a b : AuthorityEdge) : Prop :=
  if a.block ≠ b.block then a.block < b.block
  else if truthyStr a.tx_hash = true ∧ truthyStr b.tx_hash = true ∧ a.tx_hash ≠ b.tx_hash then
    a.tx_hash.getD "" < b.tx_hash.getD ""
  else if a.log_index.isSome = true ∧ b.log_index.isSome = true then
    a.log_index.getD 0 ≤ b.log_index.getD 0
  else a.timestamp ≤ b.timestamp

instance : DecidableRel codeKeyLe := fun a b => by
  unfold codeKeyLe
  infer_instance

/-- The composite sort key exactly as the specification claims it: block;
tx_hash when both present; log_index when both present; then timestamp as a
final tie-break that is always reached on full ties of the earlier keys. -/
def specKeyLe (a b : AuthorityEdge) : Prop :=
  if a.block ≠ b.block then a.block < b.block
  else if truthyStr a.tx_hash = true ∧ truthyStr b.tx_hash = true ∧ a.tx_hash ≠ b.tx_hash then
    a.tx_hash.getD "" < b.tx_hash.getD ""
  else if a.log_index.isSome = true ∧ b.log_index.isSome = true ∧ a.log_index ≠ b.log_index then
    a.log_index.getD 0 < b.log_index.getD 0
  else a.timestamp ≤ b.timestamp

instance : DecidableRel specKeyLe := fun a b => by
  unfold specKeyLe
  infer_instance

theorem codeKeyLe_iff_edgeLe (a b : AuthorityEdge) : codeKeyLe a b ↔ edgeLe a b := by
  unfold codeKeyLe edgeLe cmpEdges
  split_ifs with h1 h2 h3
  · constructor <;> (intro h; omega)
  · obtain ⟨sa, hsa, -⟩ := (truthyStr_eq_true_iff _).mp h2.1
    obtain ⟨sb, hsb, -⟩ := (truthyStr_eq_true_iff _).mp h2.2.1
    have hne : sa ≠ sb := by
      intro hc
      exact h2.2.2 (by rw [hsa, hsb, hc])
    rw [hsa, hsb]
    unfold strCmp
    simp only [Option.getD_some]
    rcases lt_trichotomy sa sb with h | h | h
    · rw [if_pos h]
      simp [h]
    · exact absurd h hne
    · rw [if_neg (asymm h), if_pos h]
      constructor
      · intro hc
        exact absurd hc (asymm h)
      · intro hc
        omega
  · constructor <;> (intro h; omega)
  · constructor <;> (intro h; omega)

theorem codeKeyLe_total (a b : AuthorityEdge) : codeKeyLe a b ∨ codeKeyLe b a := by
  rcases edgeLe_total a b with h | h
  · exact Or.inl ((codeKeyLe_iff_edgeLe a b).mpr h)
  · exact Or.inr ((codeKeyLe_iff_edgeLe b a).mpr h)

/-- An event that passes all six required-field checks of the source loop. -/
def validEvent (e : AuthorityEvent) : Prop :=
  truthyStr e.wallet = true ∧ truthyStr e.contract = true ∧
  truthyStr e.authority_type = true ∧ truthyStr e.target_entity = true ∧
  e.block ≠ none ∧ e.timestamp ≠ none

instance : DecidablePred validEvent := fun e => by
  unfold validEvent
  infer_instance

/-- The named field `f` is actually missing/empty/null on event `e`. -/
def violatesField (e : AuthorityEvent) (f : String) : Prop :=
  (f = "wallet" ∧ truthyStr e.wallet ≠ true) ∨
  (f = "contract" ∧ truthyStr e.contract ≠ true) ∨
  (f = "authority_type" ∧ truthyStr e.authority_type ≠ true) ∨
  (f = "target_entity" ∧ truthyStr e.target_entity ≠ true) ∨
  (f = "block" ∧ e.block = none) ∨
  (f = "timestamp" ∧ e.timestamp = none)

theorem processEvent_ok_of_valid {e : AuthorityEvent} (h : validEvent e) :
    processEvent e = .ok (e.wallet.getD "", edgeOf e) := by
  unfold processEvent
  rw [if_pos h.1, if_pos h.2.1, if_pos h.2.2.1, if_pos h.2.2.2.1,
    if_neg h.2.2.2.2.1, if_neg h.2.2.2.2.2]

theorem validEvent_of_processEvent_ok {e : AuthorityEvent} {p : String × AuthorityEdge}
    (h : processEvent e = .ok p) : validEvent e := by
  unfold processEvent at h
  by_cases h1 : truthyStr e.wallet = true
  · rw [if_pos h1] at h
    by_cases h2 : truthyStr e.contract = true
    · rw [if_pos h2] at h
      by_cases h3 : truthyStr e.authority_type = true
      · rw [if_pos h3] at h
        by_cases h4 : truthyStr e.target_entity = true
        · rw [if_pos h4] at h
          by_cases h5 : e.block = none
          · rw [if_pos h5] at h
            cases h
          · rw [if_neg h5] at h
            by_cases h6 : e.timestamp = none
            · rw [if_pos h6] at h
              cases h
            · exact ⟨h1, h2, h3, h4, h5, h6⟩
        · rw [if_neg h4] at h
          cases h
      · rw [if_neg h3] at h
        cases h
    · rw [if_neg h2] at h
      cases h
  · rw [if_neg h1] at h
    cases h

theorem processEvent_ok_eq {e : AuthorityEvent} {p : String × AuthorityEdge}
    (h : processEvent e = .ok p) : p = (e.wallet.getD "", edgeOf e) := by
  rw [processEvent_ok_of_valid (validEvent_of_processEvent_ok h)] at h
  cases h
  rfl

theorem processEvent_error_shape {e : AuthorityEvent} {err : GraphError}
    (h : processEvent e = .error err) :
    ∃ f, err = .missingField f ∧ violatesField e f := by
  unfold processEvent at h
  by_cases h1 : truthyStr e.wallet = true
  · rw [if_pos h1] at h
    by_cases h2 : truthyStr e.contract = true
    · rw [if_pos h2] at h
      by_cases h3 : truthyStr e.authority_type = true
      · rw [if_pos h3] at h
        by_cases h4 : truthyStr e.target_entity = true
        · rw [if_pos h4] at h
          by_cases h5 : e.block = none
          · rw [if_pos h5] at h
            cases h
            exact ⟨"block", rfl, Or.inr (Or.inr (Or.inr (Or.inr (Or.inl ⟨rfl, h5⟩))))⟩
          · rw [if_neg h5] at h
            by_cases h6 : e.timestamp = none
            · rw [if_pos h6] at h
              cases h
              exact ⟨"timestamp", rfl,
                Or.inr (Or.inr (Or.inr (Or.inr (Or.inr ⟨rfl, h6⟩))))⟩
            · rw [if_neg h6] at h
              cases h
        · rw [if_neg h4] at h
          cases h
          exact ⟨"target_entity", rfl, Or.inr (Or.inr (Or.inr (Or.inl ⟨rfl, h4⟩)))⟩
      · rw [if_neg h3] at h
        cases h
        exact ⟨"authority_type", rfl, Or.inr (Or.inr (Or.inl ⟨rfl, h3⟩))⟩
    · rw [if_neg h2] at h
      cases h
      exact ⟨"contract", rfl, Or.inr (Or.inl ⟨rfl, h2⟩)⟩
  · rw [if_neg h1] at h
    cases h
    exact ⟨"wallet", rfl, Or.inl ⟨rfl, h1⟩⟩

theorem violatesField_not_valid {e : AuthorityEvent} {f : String}
    (h : violatesField e f) : ¬ validEvent e := by
  intro hv
  rcases h with ⟨-, h⟩ | ⟨-, h⟩ | ⟨-, h⟩ | ⟨-, h⟩ | ⟨-, h⟩ | ⟨-, h⟩
  · exact h hv.1
  · exact h hv.2.1
  · exact h hv.2.2.1
  · exact h hv.2.2.2.1
  · exact hv.2.2.2.2.1 h
  · exact hv.2.2.2.2.2 h

theorem processEvent_error_of_invalid {e : AuthorityEvent} (h : ¬ validEvent e) :
    ∃ f, processEvent e = .error (.missingField f) := by
  cases hpe : processEvent e with
  | error err =>
    obtain ⟨f, hf, -⟩ := processEvent_error_shape hpe
    exact ⟨f, by rw [← hf]⟩
  | ok p =>
    exact absurd (validEvent_of_processEvent_ok hpe) h

theorem groupEvents_cons (e : AuthorityEvent) (rest : List AuthorityEvent)
    (acc : List (String × List AuthorityEdge)) :
    groupEvents (e :: rest) acc =
      match processEvent e with
      | .error err => .error err
      | .ok (w, ed) => groupEvents rest (insertEdge acc w ed) :=
  rfl

theorem groupEvents_error_shape :
    ∀ (evs : List AuthorityEvent) (acc : List (String × List AuthorityEdge)) (err : GraphError),
      groupEvents evs acc = .error err →
      ∃ f, err = .missingField f ∧ ∃ e ∈ evs, violatesField e f
  | [], _, _, h => by cases h
  | e :: rest, acc, err, h => by
    rw [groupEvents_cons] at h
    cases hpe : processEvent e with
    | error err0 =>
      rw [hpe] at h
      cases h
      obtain ⟨f, hf, hv⟩ := processEvent_error_shape hpe
      exact ⟨f, hf, e, List.mem_cons_self _ _, hv⟩
    | ok p =>
      obtain ⟨w, ed⟩ := p
      rw [hpe] at h
      obtain ⟨f, hf, e', he', hv⟩ := groupEvents_error_shape rest _ err h
      exact ⟨f, hf, e', List.mem_cons_of_mem _ he', hv⟩

theorem groupEvents_ok_valid :
    ∀ (evs : List AuthorityEvent) (acc out : List (String × List AuthorityEdge)),
      groupEvents evs acc = .ok out → ∀ e ∈ evs, validEvent e
  | [], _, _, _, e, he => absurd he (List.not_mem_nil e)
  | e :: rest, acc, out, h, e', he' => by
    rw [groupEvents_cons] at h
    cases hpe : processEvent e with
    | error err0 =>
      rw [hpe] at h
      cases h
    | ok p =>
      obtain ⟨w, ed⟩ := p
      rw [hpe] at h
      rcases List.mem_cons.mp he' with he' | he'
      · subst he'
        exact validEvent_of_processEvent_ok hpe
      · exact groupEvents_ok_valid rest _ out h e' he'

theorem groupEvents_error_of_bad :
    ∀ (evs : List AuthorityEvent) (acc : List (String × List AuthorityEdge)),
      (∃ e ∈ evs, ¬ validEvent e) →
      ∃ f, groupEvents evs acc = .error (.missingField f)
  | [], _, h => absurd h (by simp)
  | e :: rest, acc, h => by
    rw [groupEvents_cons]
    cases hpe : processEvent e with
    | error err0 =>
      obtain ⟨f, hf, -⟩ := processEvent_error_shape hpe
      exact ⟨f, by rw [hf]⟩
    | ok p =>
      obtain ⟨w, ed⟩ := p
      obtain ⟨e', he', hbad⟩ := h
      rcases List.mem_cons.mp he' with he' | he'
      · subst he'
        exact absurd (validEvent_of_processEvent_ok hpe) hbad
      · exact groupEvents_error_of_bad rest _ ⟨e', he', hbad⟩

/-- All edges grouped under wallet `w` in an association list, in stored
order (with unique keys this is the lookup of `w`). -/
def groupEdges (g : List (String × List AuthorityEdge)) (w : String) : List AuthorityEdge :=
  match g with
  | [] => []
  | (w', es) :: rest => if w' = w then es ++ groupEdges rest w else groupEdges rest w

/-- The concatenation of all edge groups of the mapping. -/
def allEdges (g : List (String × List AuthorityEdge)) : List AuthorityEdge :=
  (g.map Prod.snd).flatten

/-- The input-order list of edges built from the events of wallet `w`. -/
def walletInputEdges (evs : List AuthorityEvent) (w : String) : List AuthorityEdge :=
  (evs.filter (fun e => e.wallet.getD "" == w)).map edgeOf

theorem groupEdges_eq_nil_of_not_mem :
    ∀ (g : List (String × List AuthorityEdge)) (w : String),
      w ∉ g.map Prod.fst → groupEdges g w = []
  | [], _, _ => rfl
  | (w0, es) :: rest, w, h => by
    rw [List.map_cons] at h
    rw [groupEdges, if_neg (fun hc => h (List.mem_cons.mpr (Or.inl hc.symm)))]
    exact groupEdges_eq_nil_of_not_mem rest w (fun hc => h (List.mem_cons.mpr (Or.inr hc)))

theorem insertEdge_map_fst (w : String) (ed : AuthorityEdge) :
    ∀ g : List (String × List AuthorityEdge),
      (insertEdge g w ed).map Prod.fst =
        if w ∈ g.map Prod.fst then g.map Prod.fst else g.map Prod.fst ++ [w]
  | [] => by simp [insertEdge]
  | (w0, es) :: rest => by
    by_cases h0 : w0 = w
    · subst h0
      rw [insertEdge, if_pos rfl]
      have : w0 ∈ (w0, es).fst :: rest.map Prod.fst := List.mem_cons_self _ _
      simp [this]
    · rw [insertEdge, if_neg h0, List.map_cons, List.map_cons, insertEdge_map_fst w ed rest]
      by_cases hm : w ∈ rest.map Prod.fst
      · rw [if_pos hm, if_pos (List.mem_cons_of_mem _ hm)]
      · rw [if_neg hm, if_neg ?_, List.cons_append]
        intro hc
        rcases List.mem_cons.mp hc with hc | hc
        · exact h0 hc.symm
        · exact hm hc

theorem insertEdge_nodup {g : List (String × List AuthorityEdge)} {w : String}
    {ed : AuthorityEdge} (h : (g.map Prod.fst).Nodup) :
    ((insertEdge g w ed).map Prod.fst).Nodup := by
  rw [insertEdge_map_fst]
  by_cases hm : w ∈ g.map Prod.fst
  · rw [if_pos hm]
    exact h
  · rw [if_neg hm]
    simp [List.nodup_append, h, hm]

theorem groupEdges_insertEdge (w' : String) (ed : AuthorityEdge) (w : String) :
    ∀ g : List (String × List AuthorityEdge), (g.map Prod.fst).Nodup →
      groupEdges (insertEdge g w' ed) w =
        groupEdges g w ++ (if w' = w then [ed] else [])
  | [], _ => by
    by_cases h : w' = w
    · simp [insertEdge, groupEdges, h]
    · simp [insertEdge, groupEdges, h]
  | (w0, es) :: rest, hnd => by
    have hnd0 : w0 ∉ rest.map Prod.fst := by
      rw [List.map_cons] at hnd
      exact (List.nodup_cons.mp hnd).1
    have hndr : (rest.map Prod.fst).Nodup := by
      rw [List.map_cons] at hnd
      exact (List.nodup_cons.mp hnd).2
    by_cases h0 : w0 = w'
    · subst h0
      rw [insertEdge, if_pos rfl, groupEdges, groupEdges]
      by_cases hw : w0 = w
      · subst hw
        rw [if_pos rfl, if_pos rfl, groupEdges_eq_nil_of_not_mem rest w0 hnd0]
        simp
      · rw [if_neg hw, if_neg hw, if_neg (fun hc => hw hc)]
        simp
    · rw [insertEdge, if_neg h0, groupEdges, groupEdges]
      by_cases hw : w0 = w
      · rw [if_pos hw, if_pos hw, groupEdges_insertEdge w' ed w rest hndr, List.append_assoc]
      · rw [if_neg hw, if_neg hw, groupEdges_insertEdge w' ed w rest hndr]

theorem insertEdge_allEdges (w : String) (ed : AuthorityEdge) :
    ∀ g : List (String × List AuthorityEdge),
      List.Perm (allEdges (insertEdge g w ed)) (ed :: allEdges g)
  | [] => by
    unfold insertEdge allEdges
    simp
  | (w0, es) :: rest => by
    by_cases h0 : w0 = w
    · rw [insertEdge, if_pos h0]
      unfold allEdges
      rw [List.map_cons, List.flatten_cons, List.map_cons, List.flatten_cons,
        List.append_assoc, List.singleton_append]
      exact List.perm_middle
    · rw [insertEdge, if_neg h0]
      unfold allEdges
      rw [List.map_cons, List.flatten_cons, List.map_cons, List.flatten_cons]
      have ih := insertEdge_allEdges w ed rest
      unfold allEdges at ih
      exact (List.Perm.append_left es ih).trans List.perm_middle

theorem mem_groupEdges_of_nodup :
    ∀ {g : List (String × List AuthorityEdge)} {w : String} {es : List AuthorityEdge},
      (g.map Prod.fst).Nodup → (w, es) ∈ g → groupEdges g w = es := by
  intro g
  induction g with
  | nil =>
    intro w es _ hm
    exact absurd hm (List.not_mem_nil _)
  | cons p rest ih =>
    obtain ⟨w0, es0⟩ := p
    intro w es hnd hm
    rw [List.map_cons] at hnd
    have hnd0 := (List.nodup_cons.mp hnd).1
    have hndr := (List.nodup_cons.mp hnd).2
    rcases List.mem_cons.mp hm with hm | hm
    · cases hm
      rw [groupEdges, if_pos rfl, groupEdges_eq_nil_of_not_mem rest _ hnd0, List.append_nil]
    · have hw : w ∈ rest.map Prod.fst :=
        List.mem_map.mpr ⟨(w, es), hm, rfl⟩
      have h0w : w0 ≠ w := fun hc => hnd0 (hc ▸ hw)
      rw [groupEdges, if_neg h0w]
      exact ih hndr hm

theorem groupEvents_nodup :
    ∀ (evs : List AuthorityEvent) (acc out : List (String × List AuthorityEdge)),
      groupEvents evs acc = .ok out → (acc.map Prod.fst).Nodup →
      (out.map Prod.fst).Nodup
  | [], acc, out, h, hnd => by
    cases h
    exact hnd
  | e :: rest, acc, out, h, hnd => by
    rw [groupEvents_cons] at h
    cases hpe : processEvent e with
    | error err0 =>
      rw [hpe] at h
      cases h
    | ok p =>
      obtain ⟨w, ed⟩ := p
      rw [hpe] at h
      exact groupEvents_nodup rest _ out h (insertEdge_nodup hnd)

theorem groupEvents_groupEdges :
    ∀ (evs : List AuthorityEvent) (acc out : List (String × List AuthorityEdge)) (w : String),
      groupEvents evs acc = .ok out → (acc.map Prod.fst).Nodup →
      groupEdges out w = groupEdges acc w ++ walletInputEdges evs w
  | [], acc, out, w, h, _ => by
    cases h
    unfold walletInputEdges
    simp
  | e :: rest, acc, out, w, h, hnd => by
    rw [groupEvents_cons] at h
    cases hpe : processEvent e with
    | error err0 =>
      rw [hpe] at h
      cases h
    | ok p =>
      obtain ⟨w0, ed⟩ := p
      have hp := processEvent_ok_eq hpe
      rw [Prod.mk.injEq] at hp
      rw [hpe] at h
      have ih := groupEvents_groupEdges rest _ out w h (insertEdge_nodup hnd)
      rw [ih, groupEdges_insertEdge w0 ed w acc hnd, List.append_assoc]
      unfold walletInputEdges
      rw [List.filter_cons]
      by_cases hw : w0 = w
      · have hbeq : (e.wallet.getD "" == w) = true := by
          rw [hp.1] at hw
          simp [hw]
        rw [if_pos hbeq, if_pos hw, List.map_cons, hp.2]
        rfl
      · have hbeq : ¬ (e.wallet.getD "" == w) = true := by
          rw [hp.1] at hw
          simp [hw]
        rw [if_neg hbeq, if_neg hw]
        rfl

theorem groupEvents_allEdges :
    ∀ (evs : List AuthorityEvent) (acc out : List (String × List AuthorityEdge)),
      groupEvents evs acc = .ok out →
      List.Perm (allEdges out) (allEdges acc ++ evs.map edgeOf)
  | [], acc, out, h => by
    cases h
    simp
  | e :: rest, acc, out, h => by
    rw [groupEvents_cons] at h
    cases hpe : processEvent e with
    | error err0 =>
      rw [hpe] at h
      cases h
    | ok p =>
      obtain ⟨w0, ed⟩ := p
      have hp := processEvent_ok_eq hpe
      rw [Prod.mk.injEq] at hp
      rw [hpe] at h
      have ih := groupEvents_allEdges rest _ out h
      have hins := insertEdge_allEdges w0 ed acc
      rw [List.map_cons, ← hp.2]
      have h3 : List.Perm ((ed :: allEdges acc) ++ rest.map edgeOf)
          (allEdges acc ++ ed :: rest.map edgeOf) := by
        rw [List.cons_append]
        exact List.perm_middle.symm
      exact ih.trans ((List.Perm.append_right _ hins).trans h3)

theorem build_ok_inversion {evs : List AuthorityEvent} {out : AuthorityGraph}
    (h : buildAuthorityGraph (.array evs) = .ok out) :
    ∃ groups, groupEvents evs [] = .ok groups ∧
      out = groups.map (fun p => (p.1, ⟨p.1, List.insertionSort edgeLe p.2⟩)) := by
  simp only [buildAuthorityGraph] at h
  by_cases he : evs.isEmpty
  · rw [if_pos he] at h
    cases h
    rw [List.isEmpty_iff] at he
    subst he
    exact ⟨[], rfl, rfl⟩
  · rw [if_neg he] at h
    cases hg : groupEvents evs [] with
    | error err =>
      rw [hg] at h
      cases h
    | ok groups =>
      rw [hg] at h
      cases h
      exact ⟨groups, rfl, rfl⟩

theorem build_ok_wallet {evs : List AuthorityEvent} {out : AuthorityGraph}
    (h : buildAuthorityGraph (.array evs) = .ok out) :
    ∀ p ∈ out, p.2.wallet = p.1 ∧
      p.2.authority_edges = List.insertionSort edgeLe (walletInputEdges evs p.1) := by
  obtain ⟨groups, hg, rfl⟩ := build_ok_inversion h
  intro p hp
  obtain ⟨q, hq, rfl⟩ := List.mem_map.mp hp
  refine ⟨rfl, ?_⟩
  have hnd : (groups.map Prod.fst).Nodup := groupEvents_nodup evs [] groups hg List.nodup_nil
  obtain ⟨w0, es0⟩ := q
  have hge : groupEdges groups w0 = es0 := mem_groupEdges_of_nodup hnd hq
  have hgi : groupEdges groups w0 = groupEdges [] w0 ++ walletInputEdges evs w0 :=
    groupEvents_groupEdges evs [] groups w0 hg List.nodup_nil
  rw [groupEdges] at hgi
  rw [List.nil_append] at hgi
  show List.insertionSort edgeLe es0 = _
  rw [← hge, hgi]

/-- A well-formed sample event used by the concrete witnesses. -/
def sampleEvent : AuthorityEvent :=
  { wallet := some "0xABC", contract := some "0xTOKEN",
    authority_type := some "token_approval", target_entity := some "0xDEX",
    amount := .str "1000000", block := some 100, timestamp := some 1712345678,
    tx_hash := none, log_index := none }

/-- A malformed event (missing wallet) used by the concrete witnesses;
its zero-valued block and timestamp are accepted. -/
def noWalletEvent : AuthorityEvent :=
  { wallet := none, contract := some "0xTOKEN",
    authority_type := some "token_approval", target_entity := some "0xDEX",
    amount := .absent, block := some 0, timestamp := some 0,
    tx_hash := none, log_index := none }

/-- C7: the builder fails with `InvalidInputError` exactly on non-array
input, and the empty array yields the empty mapping rather than an error. -/
theorem buildAuthorityGraph_invalidInput_iff :
    buildAuthorityGraph .notArray = .error .invalidInput ∧
    (∀ evs : List AuthorityEvent, buildAuthorityGraph (.array evs) ≠ .error .invalidInput) ∧
    buildAuthorityGraph (.array []) = .ok [] := by
  refine ⟨rfl, ?_, rfl⟩
  intro evs hc
  simp only [buildAuthorityGraph] at hc
  by_cases he : evs.isEmpty
  · rw [if_pos he] at hc
    cases hc
  · rw [if_neg he] at hc
    cases hg : groupEvents evs [] with
    | error err =>
      rw [hg] at hc
      cases hc
      obtain ⟨f, hf, -⟩ := groupEvents_error_shape evs [] _ hg
      cases hf
    | ok groups =>
      rw [hg] at hc
      cases hc

/-- C7 witness: the theorem applied at a concrete singleton array. -/
theorem buildAuthorityGraph_invalidInput_iff_witness :
    decide (buildAuthorityGraph (.array [sampleEvent]) = .error .invalidInput) = false :=
  decide_eq_false (buildAuthorityGraph_invalidInput_iff.2.1 [sampleEvent])

/-- C4: the builder fails with a `MissingFieldError` exactly when some event
has a falsy wallet/contract/authority_type/target_entity or a null/missing
block or timestamp, and the reported field name is actually violated by
some event of the batch; the whole call aborts (the result is an error, so
no partial mapping is produced). -/
theorem buildAuthorityGraph_missingField_iff (evs : List AuthorityEvent) :
    ((∃ f, buildAuthorityGraph (.array evs) = .error (.missingField f)) ↔
      ∃ e ∈ evs, ¬ validEvent e) ∧
    (∀ f, buildAuthorityGraph (.array evs) = .error (.missingField f) →
      ∃ e ∈ evs, violatesField e f) := by
  constructor
  · constructor
    · rintro ⟨f, hf⟩
      simp only [buildAuthorityGraph] at hf
      by_cases he : evs.isEmpty
      · rw [if_pos he] at hf
        cases hf
      · rw [if_neg he] at hf
        cases hg : groupEvents evs [] with
        | error err =>
          rw [hg] at hf
          cases hf
          obtain ⟨f', hf', e, he', hv⟩ := groupEvents_error_shape evs [] _ hg
          exact ⟨e, he', violatesField_not_valid hv⟩
        | ok groups =>
          rw [hg] at hf
          cases hf
    · rintro ⟨e, he, hbad⟩
      obtain ⟨f, hf⟩ := groupEvents_error_of_bad evs [] ⟨e, he, hbad⟩
      refine ⟨f, ?_⟩
      simp only [buildAuthorityGraph]
      have hne : ¬ evs.isEmpty = true := by
        cases evs with
        | nil => exact absurd he (List.not_mem_nil e)
        | cons a l => simp
      rw [if_neg hne, hf]
  · intro f hf
    simp only [buildAuthorityGraph] at hf
    by_cases he : evs.isEmpty
    · rw [if_pos he] at hf
      cases hf
    · rw [if_neg he] at hf
      cases hg : groupEvents evs [] with
      | error err =>
        rw [hg] at hf
        cases hf
        obtain ⟨f', hf', e, he', hv⟩ := groupEvents_error_shape evs [] _ hg
        cases hf'
        exact ⟨e, he', hv⟩
      | ok groups =>
        rw [hg] at hf
        cases hf

/-- C4 witness: a batch with one valid event and one event lacking a wallet
fails via the theorem, so no mapping is produced for it. -/
theorem buildAuthorityGraph_missingField_iff_witness :
    (buildAuthorityGraph (.array [sampleEvent, noWalletEvent])).toOption = none := by
  obtain ⟨f, hf⟩ :=
    (buildAuthorityGraph_missingField_iff [sampleEvent, noWalletEvent]).1.mpr
      ⟨noWalletEvent, by decide, by decide⟩
  rw [hf]
  rfl

/-- C5: the single-wallet wrapper delegates to the batch builder, then fails
with `NoEventsError` on an empty mapping, `MultipleWalletsError` on two or
more wallets, returns the sole graph otherwise, and propagates builder
errors. -/
theorem buildSingleWalletGraph_spec (x : JsInput) :
    (buildAuthorityGraph x = .ok [] → buildSingleWalletGraph x = .error .noEvents) ∧
    (∀ w g, buildAuthorityGraph x = .ok [(w, g)] → buildSingleWalletGraph x = .ok g) ∧
    (∀ out, buildAuthorityGraph x = .ok out → 2 ≤ out.length →
      buildSingleWalletGraph x = .error .multipleWallets) ∧
    (∀ err, buildAuthorityGraph x = .error err → buildSingleWalletGraph x = .error err) := by
  refine ⟨?_, ?_, ?_, ?_⟩
  · intro h
    unfold buildSingleWalletGraph
    rw [h]
  · intro w g h
    unfold buildSingleWalletGraph
    rw [h]
  · intro out h hlen
    unfold buildSingleWalletGraph
    rw [h]
    cases out with
    | nil => simp at hlen
    | cons p rest =>
      cases rest with
      | nil => simp at hlen
      | cons q rest2 =>
        obtain ⟨w1, g1⟩ := p
        obtain ⟨w2, g2⟩ := q
        rfl
  · intro err h
    unfold buildSingleWalletGraph
    rw [h]

/-- C5 witness: the theorem applied at concrete empty, singleton and
two-wallet inputs. -/
theorem buildSingleWalletGraph_spec_witness :
    buildSingleWalletGraph (.array []) = .error .noEvents ∧
    buildSingleWalletGraph (.array [sampleEvent]) = .ok ⟨"0xABC", [edgeOf sampleEvent]⟩ ∧
    buildSingleWalletGraph
      (.array [sampleEvent, { sampleEvent with wallet := some "0xDEF" }]) =
      .error .multipleWallets :=
  ⟨(buildSingleWalletGraph_spec (.array [])).1 (by decide),
   (buildSingleWalletGraph_spec (.array [sampleEvent])).2.1 "0xABC" _ (by decide),
   (buildSingleWalletGraph_spec
       (.array [sampleEvent, { sampleEvent with wallet := some "0xDEF" }])).2.2.1
     [("0xABC", ⟨"0xABC", [edgeOf sampleEvent]⟩),
      ("0xDEF", ⟨"0xDEF", [edgeOf { sampleEvent with wallet := some "0xDEF" }]⟩)]
     (by decide) (by decide)⟩

/-- Every edge stored anywhere in the output mapping, in stored order. -/
def allEdgesOfGraph (out : AuthorityGraph) : List AuthorityEdge :=
  (out.map fun p => p.2.authority_edges).flatten

theorem flatten_sort_perm :
    ∀ g : List (String × List AuthorityEdge),
      List.Perm ((g.map fun p => List.insertionSort edgeLe p.2).flatten) (allEdges g)
  | [] => List.Perm.refl _
  | p :: rest => by
    unfold allEdges
    rw [List.map_cons, List.flatten_cons, List.map_cons, List.flatten_cons]
    exact (List.perm_insertionSort edgeLe p.2).append (flatten_sort_perm rest)

/-- C3: the output is a lossless partition of the input — the multiset of
all output edges is exactly the image of the input events under the edge
construction, and each wallet's edge list is exactly (as a multiset) the
edges built from the events carrying that wallet. -/
theorem buildAuthorityGraph_lossless_partition {evs : List AuthorityEvent}
    {out : AuthorityGraph} (h : buildAuthorityGraph (.array evs) = .ok out) :
    List.Perm (allEdgesOfGraph out) (evs.map edgeOf) ∧
    ∀ p ∈ out, p.2.wallet = p.1 ∧
      List.Perm p.2.authority_edges (walletInputEdges evs p.1) := by
  constructor
  · obtain ⟨groups, hg, rfl⟩ := build_ok_inversion h
    have h1 : allEdgesOfGraph
        (groups.map fun p => (p.1, ⟨p.1, List.insertionSort edgeLe p.2⟩)) =
        ((groups.map fun p => List.insertionSort edgeLe p.2).flatten) := by
      unfold allEdgesOfGraph
      rw [List.map_map]
      rfl
    rw [h1]
    have h2 := groupEvents_allEdges evs [] groups hg
    have h3 : allEdges ([] : List (String × List AuthorityEdge)) = [] := rfl
    rw [h3, List.nil_append] at h2
    exact (flatten_sort_perm groups).trans h2
  · intro p hp
    have hw := build_ok_wallet h p hp
    refine ⟨hw.1, ?_⟩
    rw [hw.2]
    exact List.perm_insertionSort _ _

/-- C3 witness: the theorem applied at a concrete singleton batch. -/
theorem buildAuthorityGraph_lossless_partition_witness :
    List.Perm (allEdgesOfGraph [("0xABC", ⟨"0xABC", [edgeOf sampleEvent]⟩)])
      ([sampleEvent].map edgeOf) :=
  (buildAuthorityGraph_lossless_partition (by decide)).1

/-- C8: every edge of every wallet graph the builder emits carries
`revocation_possible = "UNKNOWN"`; the builder never computes any other
value for it. -/
theorem edges_revocation_possible_unknown {evs : List AuthorityEvent}
    {out : AuthorityGraph} (h : buildAuthorityGraph (.array evs) = .ok out) :
    ∀ p ∈ out, ∀ ed ∈ p.2.authority_edges, ed.revocation_possible = "UNKNOWN" := by
  intro p hp ed hed
  have hw := build_ok_wallet h p hp
  rw [hw.2] at hed
  have hmem : ed ∈ walletInputEdges evs p.1 :=
    (List.perm_insertionSort edgeLe _).subset hed
  unfold walletInputEdges at hmem
  obtain ⟨e, -, rfl⟩ := List.mem_map.mp hmem
  rfl

/-- C8 witness: the theorem applied at a concrete singleton batch and a
concrete edge of its output. -/
theorem edges_revocation_possible_unknown_witness :
    (edgeOf sampleEvent).revocation_possible = "UNKNOWN" :=
  @edges_revocation_possible_unknown [sampleEvent]
    [("0xABC", ⟨"0xABC", [edgeOf sampleEvent]⟩)] (by decide)
    ("0xABC", ⟨"0xABC", [edgeOf sampleEvent]⟩) (by decide)
    (edgeOf sampleEvent) (by decide)

/-- Claim formalization: every emitted wallet sequence is non-decreasing
under the specification's composite key (with timestamp as a final
tie-break that is reached whenever the earlier keys tie) and equals the
stable sort of the wallet's input-order edges under that key. -/
def claimSortSpecStmt : Prop :=
  ∀ (evs : List AuthorityEvent) (out : AuthorityGraph),
    buildAuthorityGraph (.array evs) = .ok out →
    ∀ p ∈ out,
      List.Chain' specKeyLe p.2.authority_edges ∧
      p.2.authority_edges =
        (List.insertionSort (tieBreak specKeyLe)
          (tagFrom 0 (walletInputEdges evs p.1))).map Prod.snd

/-- Two events with the same wallet, block and log_index but decreasing
timestamps: the comparator returns 0 at the log_index step, so the
timestamps stay in input order 5, 3. -/
def tieEventA : AuthorityEvent :=
  { wallet := some "0xW", contract := some "0xC",
    authority_type := some "token_approval", target_entity := some "0xT",
    amount := .str "1", block := some 1, timestamp := some 5,
    tx_hash := none, log_index := some 0 }

/-- The same event with timestamp 3, supplied second. -/
def tieEventB : AuthorityEvent :=
  { tieEventA with timestamp := some 3 }

/-- C1 counterexample: the sort is NOT non-decreasing in the timestamp key
when both compared edges carry an equal log_index — the source comparator
returns `a.log_index - b.log_index` (that is, 0) without ever reaching the
timestamp fallback, so input order 5, 3 survives. -/
theorem claimSortSpec_false : ¬ claimSortSpecStmt := by
  intro h
  have h2 := (h [tieEventA, tieEventB]
      [("0xW", ⟨"0xW", [edgeOf tieEventA, edgeOf tieEventB]⟩)] (by decide)
      ("0xW", ⟨"0xW", [edgeOf tieEventA, edgeOf tieEventB]⟩) (by decide)).1
  exact absurd (List.chain'_cons.mp h2).1 (by decide)

/-- C1 (amended): each wallet's emitted sequence is non-decreasing under
the composite key the code realises — block; tx_hash when both present;
log_index when both present with NO further timestamp tie-break; timestamp
only when the log_index key is skipped — and the sort is stable: the output
equals the stable (input-position tie-broken) sort of the wallet's
input-order edge list under that key. -/
theorem buildAuthorityGraph_sorted_stable {evs : List AuthorityEvent}
    {out : AuthorityGraph} (h : buildAuthorityGraph (.array evs) = .ok out) :
    ∀ p ∈ out,
      List.Chain' codeKeyLe p.2.authority_edges ∧
      p.2.authority_edges =
        (List.insertionSort (tieBreak codeKeyLe)
          (tagFrom 0 (walletInputEdges evs p.1))).map Prod.snd := by
  intro p hp
  have hw := build_ok_wallet h p hp
  constructor
  · rw [hw.2]
    have hch := chain'_insertionSort edgeLe edgeLe_total (walletInputEdges evs p.1)
    exact hch.imp (fun a b hab => (codeKeyLe_iff_edgeLe a b).mpr hab)
  · rw [hw.2, map_snd_insertionSort_tagFrom codeKeyLe (walletInputEdges evs p.1) 0]
    exact insertionSort_congr edgeLe codeKeyLe
      (fun a b => (codeKeyLe_iff_edgeLe a b).symm) _

/-- C1 witness: the amended theorem applied to the concrete tied batch —
the emitted order 5, 3 is sorted and stable for the code's key. -/
theorem buildAuthorityGraph_sorted_stable_witness :
    List.Chain' codeKeyLe [edgeOf tieEventA, edgeOf tieEventB] ∧
    [edgeOf tieEventA, edgeOf tieEventB] =
      (List.insertionSort (tieBreak codeKeyLe)
        (tagFrom 0 (walletInputEdges [tieEventA, tieEventB] "0xW"))).map Prod.snd :=
  @buildAuthorityGraph_sorted_stable [tieEventA, tieEventB]
    [("0xW", ⟨"0xW", [edgeOf tieEventA, edgeOf tieEventB]⟩)] (by decide)
    ("0xW", ⟨"0xW", [edgeOf tieEventA, edgeOf tieEventB]⟩) (by decide)

theorem edgeOf_erase_empty_tx {e : AuthorityEvent} (h : e.tx_hash = some "") :
    edgeOf { e with tx_hash := none } = edgeOf e := by
  unfold edgeOf
  rw [h]
  rfl

theorem processEvent_erase_empty_tx {e : AuthorityEvent} (h : e.tx_hash = some "") :
    processEvent { e with tx_hash := none } = processEvent e := by
  unfold processEvent
  rw [edgeOf_erase_empty_tx h]

theorem groupEvents_congr_middle {e e' : AuthorityEvent}
    (h : processEvent e = processEvent e') :
    ∀ (evs1 evs2 : List AuthorityEvent) (acc : List (String × List AuthorityEdge)),
      groupEvents (evs1 ++ e :: evs2) acc = groupEvents (evs1 ++ e' :: evs2) acc
  | [], evs2, acc => by
    rw [List.nil_append, List.nil_append, groupEvents_cons, groupEvents_cons, h]
  | a :: rest, evs2, acc => by
    rw [List.cons_append, List.cons_append, groupEvents_cons, groupEvents_cons]
    cases hpa : processEvent a with
    | error err => rfl
    | ok p =>
      obtain ⟨w, ed⟩ := p
      exact groupEvents_congr_middle h rest evs2 (insertEdge acc w ed)

/-- C9: an event whose `tx_hash` is supplied but empty is treated exactly
like an event with no `tx_hash` at all — the builder's output on any batch
containing it is unchanged by deleting the field, and the edge built from
it carries no `tx_hash` (so the hash never participates in the sort key). -/
theorem empty_txHash_treated_as_absent (evs1 evs2 : List AuthorityEvent)
    (e : AuthorityEvent) (h : e.tx_hash = some "") :
    buildAuthorityGraph (.array (evs1 ++ e :: evs2)) =
      buildAuthorityGraph (.array (evs1 ++ { e with tx_hash := none } :: evs2)) ∧
    (∀ w ed, processEvent e = .ok (w, ed) → ed.tx_hash = none) := by
  constructor
  · simp only [buildAuthorityGraph]
    rw [if_neg (by simp : ¬((evs1 ++ e :: evs2).isEmpty = true)),
      if_neg (by simp : ¬((evs1 ++ { e with tx_hash := none } :: evs2).isEmpty = true)),
      groupEvents_congr_middle (processEvent_erase_empty_tx h).symm evs1 evs2 []]
  · intro w ed hok
    have hp := processEvent_ok_eq hok
    rw [Prod.mk.injEq] at hp
    rw [hp.2]
    show (if truthyStr e.tx_hash then e.tx_hash else none) = none
    rw [h]
    rfl

/-- A valid event whose `tx_hash` is the empty string. -/
def emptyTxEvent : AuthorityEvent :=
  { sampleEvent with tx_hash := some "" }

/-- C9 witness: the theorem applied at a concrete singleton batch. -/
theorem empty_txHash_treated_as_absent_witness :
    buildAuthorityGraph (.array [emptyTxEvent]) =
      buildAuthorityGraph (.array [{ emptyTxEvent with tx_hash := none }]) ∧
    (edgeOf emptyTxEvent).tx_hash = none := by
  have h := empty_txHash_treated_as_absent [] [] emptyTxEvent rfl
  exact ⟨h.1, h.2 "0xABC" (edgeOf emptyTxEvent) (by decide)⟩

/-- C10: a `log_index` of 0 is preserved on the built edge (presence is a
null/undefined check, not truthiness), and such an edge participates in the
`log_index` sort key: against any block-equal edge that also carries a
`log_index`, when the `tx_hash` key does not apply, the comparator returns
the `log_index` difference `0 - b.log_index`. -/
theorem logIndex_zero_preserved (e : AuthorityEvent) (w : String) (ed : AuthorityEdge)
    (h0 : e.log_index = some 0) (h : processEvent e = .ok (w, ed)) :
    ed.log_index = some 0 ∧
    ∀ b : AuthorityEdge, ed.block = b.block → b.log_index.isSome = true →
      ¬(truthyStr ed.tx_hash = true ∧ truthyStr b.tx_hash = true ∧ ed.tx_hash ≠ b.tx_hash) →
      cmpEdges ed b = 0 - b.log_index.getD 0 := by
  have hp := processEvent_ok_eq h
  rw [Prod.mk.injEq] at hp
  have hli : ed.log_index = some 0 := by
    rw [hp.2]
    exact h0
  refine ⟨hli, ?_⟩
  intro b hb hbs htx
  unfold cmpEdges
  rw [if_neg (fun hc => hc hb), if_neg htx, if_pos ⟨by rw [hli]; rfl, hbs⟩, hli]
  rfl

/-- A valid event carrying `log_index` 0. -/
def liZeroEvent : AuthorityEvent :=
  { sampleEvent with log_index := some 0 }

/-- C10 witness: the theorem applied at a concrete event and a concrete
block-equal edge with `log_index` 7. -/
theorem logIndex_zero_preserved_witness :
    (edgeOf liZeroEvent).log_index = some 0 ∧
    cmpEdges (edgeOf liZeroEvent) { edgeOf liZeroEvent with log_index := some 7 } =
      0 - 7 := by
  have h := logIndex_zero_preserved liZeroEvent "0xABC" (edgeOf liZeroEvent) rfl (by decide)
  exact ⟨h.1, h.2 { edgeOf liZeroEvent with log_index := some 7 } rfl rfl (by decide)⟩
